import Mathlib

/-!
Verification of the MoBoAligner core (src/MoBoAligner.py) against its design
specification.

Modelling conventions.  The Python code computes in the log domain with
torch tensors; we embed it in the probability domain over the rationals:
a log-domain tensor entry x is represented by its exponential exp(x) in ℚ.
Under this order-preserving bijection, logsumexp becomes a finite sum,
log-domain subtraction becomes division, logaddexp becomes addition,
logcumsumexp becomes a cumulative sum, and the finite masking sentinel
LOG_EPS = -1000 becomes a parameter eps = exp(-1000) ≥ 0 of the model
(eps = 0 is the idealisation in which masked cells carry no mass, which is
also what IEEE arithmetic produces, since exp(-1000) underflows to 0.0).
The -inf initial cells of the dynamic program become probability 0.

All tensor operations of the forward pass act independently on each batch
row b (the only cross-batch coupling, the circular shifts of the backward
reflection, has shift amount lengths.max() - lengths, which is 0 for a
single-row batch), so the model fixes one batch row: a configuration
carries the padded dimensions I and J, the true lengths tLen and mLen
(the masks are left-packed, so textMask[i] iff i < tLen and melMask[j]
iff j < mLen), and the weight matrix w i j = exp(energy[i, j]) of the
noised energy.

The helper functions get_invalid_tri_mask, get_j_last, roll_tensor and
roll_tensor_1d are imported by src/MoBoAligner.py but their sources are not
part of the repository files; they are modelled from the specification text
(sections 4.1, 4.2 and 4.5), as marked on each such definition.
-/

namespace RoMoAligner

/-- Outcome of the parameter check: the Python assert is a fatal
AssertionError, the torch.any branch only emits a warning. -/
inductive CheckOutcome
  | assertionError
  | passed (warned : Bool)
deriving DecidableEq

/-- Condition of the assert in check_parameter_validity:
set(direction) is non-empty and a subset of {"forward", "backward"}. -/
def validDirection (direction : List String) : Bool :=
  !direction.isEmpty && direction.all fun s => s == "forward" || s == "backward"

/-- check_parameter_validity of src/MoBoAligner.py (lines 18-26): asserts the
direction condition, then warns (only) when some batch row has
textLen[b] >= melLen[b]. -/
def check_parameter_validity (textLens melLens : List Nat)
    (direction : List String) : CheckOutcome :=
  if validDirection direction then
    .passed ((textLens.zip melLens).any fun p => decide (p.2 ≤ p.1))
  else .assertionError

/-- One batch row of aligner inputs: padded dims I (text) and J (mel), true
lengths tLen and mLen, probability-domain energy w i j = exp(energy[i,j]),
and eps = exp(LOG_EPS), the probability-domain value of the masking
sentinel. -/
structure AlignCfg where
  I : ℕ
  J : ℕ
  tLen : ℕ
  mLen : ℕ
  w : ℕ → ℕ → ℚ
  eps : ℚ

/-- Modelled from the spec: the complement of get_invalid_tri_mask (whose
source is not among the repository files).  Per section 4.1 the validity
predicate for the transition "token i+1 ends at frame j given the previous
boundary consumed k frames" is the conjunction of: both masks hold at the
cell (i < tLen, j < mLen, k < mLen); monotonic non-crossing k ≤ j; the
length-feasibility band i ≤ j and j ≤ mLen - tLen + i (written without
truncated subtraction); and, when forceLast is set (forward direction),
terminal pinning: the last valid token's boundary must land on the last
valid frame. -/
def validCell (c : AlignCfg) (forceLast : Bool) (i j k : ℕ) : Prop :=
  i < c.tLen ∧ j < c.mLen ∧ k < c.mLen ∧ k ≤ j ∧ i ≤ j ∧
    j + c.tLen ≤ c.mLen + i ∧
    (forceLast = true → i + 1 = c.tLen → j + 1 = c.mLen)

instance (c : AlignCfg) (fl : Bool) (i j k : ℕ) :
    Decidable (validCell c fl i j k) :=
  inferInstanceAs (Decidable (i < c.tLen ∧ j < c.mLen ∧ k < c.mLen ∧
    k ≤ j ∧ i ≤ j ∧ j + c.tLen ≤ c.mLen + i ∧
    (fl = true → i + 1 = c.tLen → j + 1 = c.mLen)))

/-- energy_4D after masked_fill_(tri_invalid, log_eps): the weight of a cell
is w i j where valid, eps at masked cells. -/
def energyMasked (c : AlignCfg) (fl : Bool) (i j k : ℕ) : ℚ :=
  if validCell c fl i j k then c.w i j else c.eps

/-- Probability-domain value of logsumexp(energy_4D, dim=2) (the J axis). -/
def sumExpEnergy (c : AlignCfg) (fl : Bool) (i k : ℕ) : ℚ :=
  ∑ j ∈ Finset.range c.J, energyMasked c fl i j k

/-- compute_log_cond_prob, first output: probability-domain value of
energy_4D - logsumexp(energy_4D, dim=2), i.e. the normalised categorical
weight of frame j for token transition i given previous boundary k. -/
def log_cond_prob (c : AlignCfg) (fl : Bool) (i j k : ℕ) : ℚ :=
  energyMasked c fl i j k / sumExpEnergy c fl i k

/-- compute_log_cond_prob, second output: the reverse-cumulative
(logcumsumexp of the flip) of log_cond_prob along the frame axis,
re-masked to the sentinel outside validity. -/
def log_cond_prob_geq (c : AlignCfg) (fl : Bool) (i j k : ℕ) : ℚ :=
  if validCell c fl i j k then
    ∑ x ∈ Finset.Ico j c.J, log_cond_prob c fl i x k
  else c.eps

/-- compute_forward_pass of src/MoBoAligner.py (lines 158-182): the banded
DP over a (I+1) x (J+1) table, B_ij[0,0] = 1 (probability domain of 0 in
log domain), all other cells of row 0 are 0 (-inf), and row i+1 writes only
the columns col with i+1 ≤ col, col + I ≤ J + i + 2 and col ≤ J (the Python
slice i+1 : J-I+i+3 clamped to the table width), each as the sum over the
first J columns of the previous row weighted by log_cond_prob at frame
col - 1. -/
def B_ij (c : AlignCfg) (fl : Bool) : ℕ → ℕ → ℚ
  | 0, col => if col = 0 then 1 else 0
  | i + 1, col =>
    if i + 1 ≤ col ∧ col + c.I ≤ c.J + i + 2 ∧ col ≤ c.J then
      ∑ k ∈ Finset.range c.J, B_ij c fl i k * log_cond_prob c fl i (col - 1) k
    else 0

/-- Unbanded reference recursion of the band-equivalence claim: the same
forward recursion computed at every column (over all j, with the same
validity-masked conditional probabilities and the same k range), written
from the specification's reference formula rather than from the code. -/
def B_ij_unbanded (c : AlignCfg) (fl : Bool) : ℕ → ℕ → ℚ
  | 0, col => if col = 0 then 1 else 0
  | i + 1, col =>
    if col = 0 then 0
    else
      ∑ k ∈ Finset.range c.J,
        B_ij_unbanded c fl i k * log_cond_prob c fl i (col - 1) k

/-- calculate_interval_probability of src/MoBoAligner.py (lines 184-202):
LogBoundary[i, j] as the sum over k < J of Bij[i, k] (the sliced DP table
rows 0..I-1, columns 0..J-1) times the suffix conditional probability at
(i, j, k). -/
def calculate_interval_probability (c : AlignCfg) (fl : Bool) (i j : ℕ) : ℚ :=
  ∑ k ∈ Finset.range c.J, B_ij c fl i k * log_cond_prob_geq c fl i j k

/-- compute_energy_and_masks_backward (lines 63-78) for one batch row, where
the circular-shift amounts lengths.max() - lengths are 0: the energy is
flipped on both axes and the first row and column are dropped, giving
dimensions I-1 and J-1; the reflected masks keep their true-counts except
that a full-length axis loses one valid position to the dropped cell.
Modelled from the spec: roll_tensor / roll_tensor_1d (not among the
repository files) are per-batch circular shifts (section 4.5), identity at
shift 0. -/
def backwardCfg (c : AlignCfg) : AlignCfg where
  I := c.I - 1
  J := c.J - 1
  tLen := if c.tLen = c.I then c.I - 1 else c.tLen
  mLen := if c.mLen = c.J then c.J - 1 else c.mLen
  w := fun i j => c.w (c.I - 2 - i) (c.J - 2 - j)
  eps := c.eps

/-- Modelled from the spec: the strict suffix form for the backward
direction (lines 309-316) rolls the ≥ cumulative by one position along the
frame axis and masks the wrap-around boundary cell to the sentinel
(get_j_last is not among the repository files; section 4.5 describes it). -/
def log_cond_prob_gt (c : AlignCfg) (i j k : ℕ) : ℚ :=
  if j + 1 = (backwardCfg c).J then (backwardCfg c).eps
  else log_cond_prob_geq (backwardCfg c) false i (j + 1) k

/-- Backward interval probability before reflection (lines 319-327). -/
def log_boundary_backward_raw (c : AlignCfg) (i j : ℕ) : ℚ :=
  ∑ k ∈ Finset.range (backwardCfg c).J,
    B_ij (backwardCfg c) false i k * log_cond_prob_gt c i j k

/-- Backward interval probability reflected back to forward index space
(lines 328-334; the single-row shift amounts are again 0, so the reflection
is the double flip inside the backward dimensions I-1 and J-1). -/
def log_boundary_backward (c : AlignCfg) (i j : ℕ) : ℚ :=
  log_boundary_backward_raw c (c.I - 2 - i) (c.J - 2 - j)

/-- A tensor with its shape: torch operations check shapes at run time, and
the shape data is what makes broadcasting errors expressible. -/
structure Mat where
  rows : ℕ
  cols : ℕ
  val : ℕ → ℕ → ℚ

/-- Shape of torch broadcasting on one axis. -/
def broadcastDim (a b : ℕ) : Option ℕ :=
  if a = b then some a
  else if a = 1 then some b
  else if b = 1 then some a
  else none

/-- Element access under broadcasting: a size-1 axis repeats its only
entry. -/
def bAt (m : Mat) (i j : ℕ) : ℚ :=
  m.val (if m.rows = 1 then 0 else i) (if m.cols = 1 then 0 else j)

/-- combine_bidirectional_alignment of src/MoBoAligner.py (lines 204-221):
probability-domain value of logaddexp(f - log 2, g - log 2), i.e. the
average f/2 + g/2, elementwise under torch broadcasting; none when the
shapes are not broadcast-compatible (the torch RuntimeError). -/
def combine_bidirectional_alignment (f g : Mat) : Option Mat :=
  match broadcastDim f.rows g.rows, broadcastDim f.cols g.cols with
  | some r, some cl =>
    some ⟨r, cl, fun i j => bAt f i j / 2 + bAt g i j / 2⟩
  | _, _ => none

/-- Result of running a Python call: it can raise (assert failure, an
undefined local name, a torch shape error) or return a value. -/
inductive PyResult (α : Type)
  | assertionError
  | nameError
  | runtimeError
  | ok (val : α)

/-- The triple returned by MoBoAligner.forward. -/
structure AlignOut where
  soft : Mat
  hard : Mat
  expanded : ℕ → ℕ → ℚ

/-- Lines 346-350 of src/MoBoAligner.py: expanded text embeddings
bmm(exp(soft).transpose(1,2), text_embeddings) * mel_mask.unsqueeze(2)
(the soft matrix already lives in the probability domain here). -/
def expandedEmbeddings (c : AlignCfg) (tEmb : ℕ → ℕ → ℚ) (soft : Mat)
    (j d : ℕ) : ℚ :=
  (∑ i ∈ Finset.range c.I, soft.val i j * tEmb i d) *
    (if j < c.mLen then 1 else 0)

/-- The forward-direction boundary matrix with its shape (B, I, J). -/
def fwdMat (c : AlignCfg) : Mat :=
  ⟨c.I, c.J, calculate_interval_probability c true⟩

/-- The backward-direction boundary matrix with its shape (B, I-1, J-1),
the shape produced by the [:, 1:, 1:] slicing of the backward branch. -/
def bwdMat (c : AlignCfg) : Mat :=
  ⟨c.I - 1, c.J - 1, log_boundary_backward c⟩

/-- Lines 274-344 of src/MoBoAligner.py up to the soft alignment: the
per-direction branches run only when their name is in the direction list
(a branch that did not run leaves its local variable undefined, Python's
NameError when later read), and the final dispatch compares the direction
list for equality with the exact singleton lists. -/
def dispatchBody (c : AlignCfg) (direction : List String) : PyResult Mat :=
  if direction = ["forward"] then
    match (if "forward" ∈ direction then some (fwdMat c) else none) with
    | some f => .ok f
    | none => .nameError
  else if direction = ["backward"] then
    match (if "backward" ∈ direction then some (bwdMat c) else none) with
    | some g => .ok g
    | none => .nameError
  else
    match (if "forward" ∈ direction then some (fwdMat c) else none),
        (if "backward" ∈ direction then some (bwdMat c) else none) with
    | some f, some g =>
      match combine_bidirectional_alignment f g with
      | some m => .ok m
      | none => .runtimeError
    | _, _ => .nameError

/-- The parameter check guards the branch dispatch. -/
def dispatchSoft (c : AlignCfg) (direction : List String) : PyResult Mat :=
  match check_parameter_validity [c.tLen] [c.mLen] direction with
  | .assertionError => .assertionError
  | .passed _ => dispatchBody c direction

/-- Lines 346-354: the expanded-embedding bmm requires the soft matrix to
have shape (I, J) against the (I, D) text embeddings and the length-J mel
mask (otherwise torch raises); then the externally supplied Viterbi decoder
(the monotonic_align package, an external collaborator) produces the hard
alignment, and the triple is returned. -/
def finalize (c : AlignCfg) (tEmb : ℕ → ℕ → ℚ) (vit : Mat → Mat)
    (soft : Mat) : PyResult AlignOut :=
  if soft.rows = c.I ∧ soft.cols = c.J then
    .ok ⟨soft, vit soft, expandedEmbeddings c tEmb soft⟩
  else .runtimeError

/-- MoBoAligner.forward of src/MoBoAligner.py (lines 239-354) for one batch
row, from the post-noise probability-domain energy w. -/
def MoBoForward (c : AlignCfg) (tEmb : ℕ → ℕ → ℚ) (vit : Mat → Mat)
    (direction : List String) : PyResult AlignOut :=
  match dispatchSoft c direction with
  | .ok soft => finalize c tEmb vit soft
  | .assertionError => .assertionError
  | .nameError => .nameError
  | .runtimeError => .runtimeError

/-- Soft alignment of a successful forward call (0 elsewhere). -/
def getSoft (r : PyResult AlignOut) : ℕ → ℕ → ℚ :=
  match r with
  | .ok o => o.soft.val
  | _ => fun _ _ => 0

/-- Whether a forward call returned. -/
def isOk (r : PyResult AlignOut) : Bool :=
  match r with
  | .ok _ => true
  | _ => false

/-- compute_energy of src/MoBoAligner.py (lines 28-43): bmm of the
embeddings over their shared channel axis, scaled by
1/sqrt(text_channels * mel_channels); bmm forces the two channel counts to
coincide, so the scale is exactly the channel count. -/
def compute_energy (Dch : ℕ) (tEmb mEmb : ℕ → ℕ → ℚ) (i j : ℕ) : ℚ :=
  (∑ d ∈ Finset.range Dch, tEmb i d * mEmb j d) / (Dch : ℚ)

/-- Temperature interpolation of apply_gumbel_noise (lines 56-59). -/
def temperatureOf (tmin tmax r : ℚ) : ℚ :=
  tmin + (tmax - tmin) * r

/-- apply_gumbel_noise of src/MoBoAligner.py (lines 45-61) with the noise
matrix as an explicit input: (energy + noise) / temperature in the log
domain. -/
def apply_gumbel_noise (tmin tmax : ℚ) (energy noise : ℕ → ℕ → ℚ)
    (r : ℚ) (i j : ℕ) : ℚ :=
  (energy i j + noise i j) / temperatureOf tmin tmax r

/-- A full argument tuple for one forward call: embeddings, masks (as
lengths), temperature, direction list, the externally supplied Gumbel noise
matrix, a function expBridge standing for pointwise exponentiation (the
bridge from the log-domain noised energy to the probability-domain weights;
exponentiation itself is transcendental, so it enters the rational model as
an explicit function argument), the external Viterbi decoder and the
sentinel value. -/
structure AlignInputs where
  I : ℕ
  J : ℕ
  tLen : ℕ
  mLen : ℕ
  Dch : ℕ
  tEmb : ℕ → ℕ → ℚ
  mEmb : ℕ → ℕ → ℚ
  noise : ℕ → ℕ → ℚ
  tmin : ℚ
  tmax : ℚ
  tempR : ℚ
  expBridge : ℚ → ℚ
  eps : ℚ
  vit : Mat → Mat
  direction : List String

/-- The whole of MoBoAligner.forward from raw inputs: energy, noise and
temperature, then the probability-domain pipeline. -/
def MoBoForwardFull (a : AlignInputs) : PyResult AlignOut :=
  MoBoForward
    { I := a.I, J := a.J, tLen := a.tLen, mLen := a.mLen,
      w := fun i j =>
        a.expBridge
          (apply_gumbel_noise a.tmin a.tmax
            (compute_energy a.Dch a.tEmb a.mEmb) a.noise a.tempR i j),
      eps := a.eps }
    a.tEmb a.vit a.direction

/-- Stand-in for the external Viterbi decoder in concrete instances. -/
def vitId : Mat → Mat := fun m => m

/-- Concrete embedding matrix for concrete instances. -/
def embW : ℕ → ℕ → ℚ := fun i d => (i : ℚ) + (d : ℚ) + 1

/-- Tiny concrete configuration: I = 2 tokens, J = 3 frames, full lengths,
uniform energy, idealised sentinel. -/
def cfgC1 : AlignCfg := ⟨2, 3, 2, 3, fun _ _ => 1, 0⟩

/-- Degenerate-length configuration: textLen = 4 ≥ melLen = 3. -/
def cfgC2 : AlignCfg := ⟨4, 3, 4, 3, fun _ _ => 1, 0⟩

/-- Ragged-padding configuration: padded dims 4 x 5 with true lengths 2
and 5, so melLen - textLen = 3 exceeds the global band slack J - I + 1 = 2. -/
def cfgC3 : AlignCfg := ⟨4, 5, 2, 5, fun _ _ => 1, 0⟩

/-- Padded-row configuration with a strictly positive sentinel: one valid
token inside a padded text axis of length 2. -/
def cfgC5 : AlignCfg := ⟨2, 3, 1, 3, fun _ _ => 1, 1 / 1000000⟩

/-- Both-directions shape-bug configuration. -/
def cfgC6 : AlignCfg := ⟨2, 4, 2, 4, fun _ _ => 1, 0⟩

/-- Concrete argument tuple for the determinism witness. -/
def inputs0 : AlignInputs where
  I := 2
  J := 3
  tLen := 2
  mLen := 3
  Dch := 2
  tEmb := embW
  mEmb := embW
  noise := fun _ _ => 1
  tmin := 1 / 10
  tmax := 1
  tempR := 1 / 2
  expBridge := fun x => x * x + 1
  eps := 0
  vit := vitId
  direction := ["forward"]

/-- Output of the concrete C7 call. -/
def outC7 : AlignOut :=
  ⟨fwdMat cfgC1, vitId (fwdMat cfgC1), expandedEmbeddings cfgC1 embW (fwdMat cfgC1)⟩

/-- Helper: the Bool validity condition of the direction assert, in
propositional form. -/
theorem validDirection_iff (direction : List String) :
    validDirection direction = true ↔
      direction ≠ [] ∧ ∀ s ∈ direction, s = "forward" ∨ s = "backward" := by
  simp [validDirection, List.isEmpty_iff]

/-- C2 counterexample: at textLen = [4], melLen = [3] (the degenerate-reject
scenario of the spec) the parameter check does not raise; it returns with
only the warning flag set, and the computation is allowed to continue. -/
theorem c2_counterexample :
    check_parameter_validity [4] [3] ["forward"] = .passed true ∧
      check_parameter_validity [4] [3] ["forward"] ≠ .assertionError := by
  constructor
  · rfl
  · decide

/-- C2 amended: a batch row with textLen ≥ melLen only sets the warning
flag of the parameter check, and MoBoAligner.forward runs to completion
(returns a value) instead of raising; only the direction assert is fatal. -/
theorem c2_warning_amended (c : AlignCfg) (tEmb : ℕ → ℕ → ℚ)
    (vit : Mat → Mat) (hge : c.mLen ≤ c.tLen) :
    check_parameter_validity [c.tLen] [c.mLen] ["forward"] = .passed true ∧
      isOk (MoBoForward c tEmb vit ["forward"]) = true := by
  constructor
  · unfold check_parameter_validity
    rw [if_pos (by decide)]
    simp [hge]
  · have hc : check_parameter_validity [c.tLen] [c.mLen] ["forward"] =
        .passed (([c.tLen].zip [c.mLen]).any fun p => decide (p.2 ≤ p.1)) := by
      unfold check_parameter_validity
      rw [if_pos (by decide)]
    have hd : dispatchSoft c ["forward"] = .ok (fwdMat c) := by
      unfold dispatchSoft
      rw [hc]
      rfl
    unfold MoBoForward
    rw [hd]
    show isOk (finalize c tEmb vit (fwdMat c)) = true
    unfold finalize
    rw [if_pos ⟨rfl, rfl⟩]
    rfl

/-- C2 amended witness at the degenerate lengths. -/
theorem c2_warning_amended_witness :
    cfgC2.mLen ≤ cfgC2.tLen ∧
      (check_parameter_validity [cfgC2.tLen] [cfgC2.mLen] ["forward"] =
          .passed true ∧
        isOk (MoBoForward cfgC2 embW vitId ["forward"]) = true) :=
  ⟨by decide, c2_warning_amended cfgC2 embW vitId (by decide)⟩

/-- C8: the parameter check raises its fatal assertion exactly for an empty
direction list or one holding an element other than "forward"/"backward",
and an invalid direction makes MoBoAligner.forward raise before any tensor
computation; every non-empty subset of the two names passes the check. -/
theorem c8_direction_check (textLens melLens : List ℕ)
    (direction : List String) (c : AlignCfg) (tEmb : ℕ → ℕ → ℚ)
    (vit : Mat → Mat) :
    (check_parameter_validity textLens melLens direction = .assertionError ↔
      direction = [] ∨ ∃ s ∈ direction, s ≠ "forward" ∧ s ≠ "backward") ∧
    (validDirection direction = false →
      MoBoForward c tEmb vit direction = .assertionError) := by
  constructor
  · unfold check_parameter_validity
    by_cases h : validDirection direction = true
    · rw [if_pos h]
      have hval := (validDirection_iff direction).1 h
      constructor
      · intro hcon; cases hcon
      · rintro (rfl | ⟨s, hs, hne⟩)
        · exact absurd rfl hval.1
        · rcases hval.2 s hs with h1 | h1
          · exact absurd h1 hne.1
          · exact absurd h1 hne.2
    · rw [if_neg h]
      have hbad : direction = [] ∨
          ∃ s ∈ direction, s ≠ "forward" ∧ s ≠ "backward" := by
        by_contra hcon
        push_neg at hcon
        refine h ((validDirection_iff direction).2 ⟨hcon.1, fun s hs => ?_⟩)
        by_cases hf : s = "forward"
        · exact Or.inl hf
        · exact Or.inr (hcon.2 s hs hf)
      exact ⟨fun _ => hbad, fun _ => rfl⟩
  · intro h
    have hc : check_parameter_validity [c.tLen] [c.mLen] direction =
        .assertionError := by
      unfold check_parameter_validity
      rw [if_neg (by simp [h])]
    unfold MoBoForward dispatchSoft
    rw [hc]

/-- Helper: the parameter check under a valid direction list. -/
theorem check_passed (c : AlignCfg) (direction : List String)
    (hvalid : validDirection direction = true) :
    check_parameter_validity [c.tLen] [c.mLen] direction =
      .passed (([c.tLen].zip [c.mLen]).any fun p => decide (p.2 ≤ p.1)) := by
  unfold check_parameter_validity
  rw [if_pos hvalid]

/-- Helper: under a valid direction the dispatch reduces to its body. -/
theorem dispatchSoft_eq_body (c : AlignCfg) (direction : List String)
    (hvalid : validDirection direction = true) :
    dispatchSoft c direction = dispatchBody c direction := by
  unfold dispatchSoft
  rw [check_passed c direction hvalid]

/-- C10: when the direction list passes the validity check with a single
distinct element but is not the exact one-element list, the dispatch falls
into the bidirectional branch and reads a local variable the skipped branch
never defined: MoBoAligner.forward dies with a NameError instead of
returning that direction's result. -/
theorem c10_exact_list_dispatch (c : AlignCfg) (tEmb : ℕ → ℕ → ℚ)
    (vit : Mat → Mat) (direction : List String)
    (hvalid : validDirection direction = true)
    (hone : (∀ s ∈ direction, s = "forward") ∨
      (∀ s ∈ direction, s = "backward"))
    (hf : direction ≠ ["forward"]) (hb : direction ≠ ["backward"]) :
    MoBoForward c tEmb vit direction = .nameError := by
  have hne : direction ≠ [] := ((validDirection_iff direction).1 hvalid).1
  have hd : dispatchSoft c direction = .nameError := by
    rw [dispatchSoft_eq_body c direction hvalid]
    unfold dispatchBody
    rw [if_neg hf, if_neg hb]
    rcases hone with hall | hall
    · have hmf : "forward" ∈ direction := by
        cases direction with
        | nil => exact absurd rfl hne
        | cons a l => simp [hall a (List.mem_cons_self a l)]
      have hmb : "backward" ∉ direction := fun hm =>
        absurd (hall _ hm) (by decide)
      rw [if_pos hmf, if_neg hmb]
    · have hmb : "backward" ∈ direction := by
        cases direction with
        | nil => exact absurd rfl hne
        | cons a l => simp [hall a (List.mem_cons_self a l)]
      have hmf : "forward" ∉ direction := fun hm =>
        absurd (hall _ hm) (by decide)
      rw [if_neg hmf, if_pos hmb]
  unfold MoBoForward
  rw [hd]

/-- C10 witness at the duplicated singleton ["forward", "forward"]. -/
theorem c10_exact_list_dispatch_witness :
    MoBoForward cfgC1 embW vitId ["forward", "forward"] = .nameError :=
  c10_exact_list_dispatch cfgC1 embW vitId ["forward", "forward"] (by decide)
    (Or.inl (by decide)) (by decide) (by decide)

/-- C6 (code bug): whenever both directions are requested (and J ≥ 3), the
combination step applies logaddexp to a (B, I, J) forward tensor and a
(B, I-1, J-1) backward tensor; the frame axes J and J-1 are not
broadcast-compatible, so torch raises a RuntimeError and no combined soft
alignment is ever returned. -/
theorem c6_bidirectional_shape_bug (c : AlignCfg) (tEmb : ℕ → ℕ → ℚ)
    (vit : Mat → Mat) (direction : List String)
    (hvalid : validDirection direction = true)
    (hf : "forward" ∈ direction) (hb : "backward" ∈ direction)
    (hJ : 3 ≤ c.J) :
    MoBoForward c tEmb vit direction = .runtimeError := by
  have hnf : direction ≠ ["forward"] := by
    intro h; rw [h] at hb; simp at hb
  have hnb : direction ≠ ["backward"] := by
    intro h; rw [h] at hf; simp at hf
  have hcols : broadcastDim (fwdMat c).cols (bwdMat c).cols = none := by
    show broadcastDim c.J (c.J - 1) = none
    unfold broadcastDim
    rw [if_neg (by omega), if_neg (by omega), if_neg (by omega)]
  have hcomb :
      combine_bidirectional_alignment (fwdMat c) (bwdMat c) = none := by
    unfold combine_bidirectional_alignment
    rcases hr : broadcastDim (fwdMat c).rows (bwdMat c).rows with _ | r <;>
      rw [hcols]
  have hd : dispatchSoft c direction = .runtimeError := by
    rw [dispatchSoft_eq_body c direction hvalid]
    unfold dispatchBody
    rw [if_neg hnf, if_neg hnb, if_pos hf, if_pos hb]
    show (match combine_bidirectional_alignment (fwdMat c) (bwdMat c) with
      | some m => PyResult.ok m
      | none => PyResult.runtimeError) = PyResult.runtimeError
    rw [hcomb]
  unfold MoBoForward
  rw [hd]

/-- C6 witness at the concrete failing input I = 2, J = 4. -/
theorem c6_bidirectional_shape_bug_witness :
    MoBoForward cfgC6 embW vitId ["forward", "backward"] = .runtimeError :=
  c6_bidirectional_shape_bug cfgC6 embW vitId ["forward", "backward"]
    (by decide) (by decide) (by decide) (by decide)

/-- C9: the forward computation is a pure function of its inputs; two calls
with identical embeddings, masks, temperature, direction and identical
externally supplied noise (and the same external exponential bridge and
Viterbi collaborator) return identical soft alignment, hard alignment and
expanded embeddings. -/
theorem c9_deterministic (a b : AlignInputs) (h : a = b) :
    MoBoForwardFull a = MoBoForwardFull b := by
  rw [h]

/-- C9 witness: the two calls of one concrete repeated input coincide. -/
theorem c9_deterministic_witness :
    MoBoForwardFull inputs0 = MoBoForwardFull inputs0 :=
  c9_deterministic inputs0 inputs0 rfl

/-- C7: a successful forward call returns expanded embeddings that are, at
every frame j and channel d, the soft-alignment-weighted sum of the token
embeddings when the mel mask holds at j, and zero otherwise. -/
theorem c7_expanded_embeddings (c : AlignCfg) (tEmb : ℕ → ℕ → ℚ)
    (vit : Mat → Mat) (direction : List String) (out : AlignOut)
    (h : MoBoForward c tEmb vit direction = .ok out) (j d : ℕ) :
    out.expanded j d =
      if j < c.mLen then
        ∑ i ∈ Finset.range c.I, out.soft.val i j * tEmb i d
      else 0 := by
  unfold MoBoForward at h
  rcases hd : dispatchSoft c direction with _ | _ | _ | soft <;> rw [hd] at h
  · exact (PyResult.noConfusion h)
  · exact (PyResult.noConfusion h)
  · exact (PyResult.noConfusion h)
  · have h2 : finalize c tEmb vit soft = .ok out := h
    unfold finalize at h2
    split at h2
    · have hout :
          ({ soft := soft, hard := vit soft,
             expanded := expandedEmbeddings c tEmb soft } : AlignOut) = out :=
        PyResult.ok.inj h2
      rw [← hout]
      show expandedEmbeddings c tEmb soft j d = _
      unfold expandedEmbeddings
      rw [mul_ite, mul_one, mul_zero]
    · exact (PyResult.noConfusion h2)

/-- C7 witness at a concrete successful call and concrete (j, d). -/
theorem c7_expanded_embeddings_witness :
    MoBoForward cfgC1 embW vitId ["forward"] = .ok outC7 ∧
      outC7.expanded 0 0 =
        if 0 < cfgC1.mLen then
          ∑ i ∈ Finset.range cfgC1.I, outC7.soft.val i 0 * embW i 0
        else 0 :=
  ⟨rfl, c7_expanded_embeddings cfgC1 embW vitId ["forward"] outC7 rfl 0 0⟩

/-- C5 amended: at a position whose frame index is outside the mel mask,
the interval log-probability is not the bare sentinel LOG_EPS but LOG_EPS
plus the log of the DP row mass (in the probability domain: eps times the
row mass), for either direction and any sentinel value. -/
theorem c5_masked_sentinel_amended (c : AlignCfg) (fl : Bool) (i j : ℕ)
    (hj : c.mLen ≤ j) :
    calculate_interval_probability c fl i j =
      c.eps * ∑ k ∈ Finset.range c.J, B_ij c fl i k := by
  unfold calculate_interval_probability
  rw [Finset.mul_sum]
  refine Finset.sum_congr rfl fun k _ => ?_
  have hv : ¬ validCell c fl i j k := fun hvc =>
    absurd hvc.2.1 (not_lt.2 hj)
  rw [log_cond_prob_geq, if_neg hv, mul_comm]

/-- C5 amended witness at a concrete out-of-mask frame index. -/
theorem c5_masked_sentinel_amended_witness :
    cfgC1.mLen ≤ 3 ∧
      calculate_interval_probability cfgC1 true 0 3 =
        cfgC1.eps * ∑ k ∈ Finset.range cfgC1.J, B_ij cfgC1 true 0 k :=
  ⟨by decide, c5_masked_sentinel_amended cfgC1 true 0 3 (by decide)⟩

/-- C1 counterexample: at the concrete instance I = 2, J = 3, textLen = 2 <
melLen = 3, uniform energy, idealised sentinel, direction ["forward"] (all
preconditions of the claim hold and textMask[0] is true), the returned soft
alignment row of token 0 sums over the valid frames to 3/2 — the expected
number of frames owned by the token — and not to 1 (3/2 is far outside any
1e-4 tolerance). -/
theorem c1_counterexample :
    (∑ j ∈ Finset.range 3,
        getSoft (MoBoForward cfgC1 embW vitId ["forward"]) 0 j) = 3 / 2 ∧
      (3 : ℚ) / 2 ≠ 1 := by
  constructor
  · have h : getSoft (MoBoForward cfgC1 embW vitId ["forward"]) =
        calculate_interval_probability cfgC1 true := rfl
    rw [h]
    norm_num [calculate_interval_probability, B_ij, log_cond_prob_geq,
      log_cond_prob, energyMasked, sumExpEnergy, cfgC1, Finset.sum_range_succ,
      Finset.sum_range_zero, Finset.sum_Ico_eq_sum_range, validCell,
      -Finset.sum_boole]
  · norm_num

/-- C5 counterexample: at the concrete instance with one valid token inside
a padded text axis (tLen = 1 < I = 2) and a strictly positive sentinel, the
position (i, j) = (1, 0) lies outside textMask[i] & melMask[j], yet the
returned soft alignment there is eps * (junk row mass) = 2 eps^2 / (1+2 eps),
which differs from the sentinel eps: the result is not masked to LOG_EPS at
every invalid position. -/
theorem c5_counterexample :
    ¬ 1 < cfgC5.tLen ∧ 0 < cfgC5.mLen ∧
      getSoft (MoBoForward cfgC5 embW vitId ["forward"]) 1 0 ≠ cfgC5.eps := by
  refine ⟨by decide, by decide, ?_⟩
  have h : getSoft (MoBoForward cfgC5 embW vitId ["forward"]) =
      calculate_interval_probability cfgC5 true := rfl
  rw [h]
  norm_num [calculate_interval_probability, B_ij, log_cond_prob_geq,
    log_cond_prob, energyMasked, sumExpEnergy, cfgC5, Finset.sum_range_succ,
    Finset.sum_range_zero, Finset.sum_Ico_eq_sum_range, validCell,
    -Finset.sum_boole]

/-- C3 counterexample: at the ragged instance (padded dims 4 x 5, true
lengths 2 and 5, so melLen - textLen = 3 > J - I + 1 = 2), the banded DP
leaves cell (1, 4) at probability 0 while the unbanded reference recursion
puts mass 1/4 there; the cell lies among the rows < I and columns < J read
by calculate_interval_probability, so the band is an approximation on this
input, not a pure optimisation. -/
theorem c3_counterexample :
    B_ij cfgC3 true 1 4 ≠ B_ij_unbanded cfgC3 true 1 4 ∧
      1 < cfgC3.I ∧ 4 < cfgC3.J := by
  refine ⟨?_, by decide, by decide⟩
  have h1 : B_ij cfgC3 true 1 4 = 0 := by
    norm_num [B_ij, cfgC3]
  have h2 : B_ij_unbanded cfgC3 true 1 4 = 1 / 4 := by
    norm_num [B_ij_unbanded, B_ij, log_cond_prob, energyMasked, sumExpEnergy,
      cfgC3, Finset.sum_range_succ, Finset.sum_range_zero, validCell,
      -Finset.sum_boole]
  rw [h1, h2]
  norm_num

/-- Helper: with the idealised sentinel, a masked cell carries no
conditional probability. -/
theorem log_cond_prob_of_invalid (c : AlignCfg) (fl : Bool) (i j k : ℕ)
    (heps : c.eps = 0) (h : ¬ validCell c fl i j k) :
    log_cond_prob c fl i j k = 0 := by
  unfold log_cond_prob energyMasked
  rw [if_neg h, heps, zero_div]

/-- Helper: masked energies are nonnegative for nonnegative weights. -/
theorem energyMasked_nonneg (c : AlignCfg) (fl : Bool) (i j k : ℕ)
    (hw : ∀ i j, 0 ≤ c.w i j) (heps : 0 ≤ c.eps) :
    0 ≤ energyMasked c fl i j k := by
  unfold energyMasked
  split
  · exact hw i j
  · exact heps

/-- Helper: the normalisation denominator is nonnegative. -/
theorem sumExpEnergy_nonneg (c : AlignCfg) (fl : Bool) (i k : ℕ)
    (hw : ∀ i j, 0 ≤ c.w i j) (heps : 0 ≤ c.eps) :
    0 ≤ sumExpEnergy c fl i k :=
  Finset.sum_nonneg fun j _ => energyMasked_nonneg c fl i j k hw heps

/-- Helper: conditional probabilities are nonnegative. -/
theorem log_cond_prob_nonneg (c : AlignCfg) (fl : Bool) (i j k : ℕ)
    (hw : ∀ i j, 0 ≤ c.w i j) (heps : 0 ≤ c.eps) :
    0 ≤ log_cond_prob c fl i j k :=
  div_nonneg (energyMasked_nonneg c fl i j k hw heps)
    (sumExpEnergy_nonneg c fl i k hw heps)

/-- Helper: suffix conditional probabilities are nonnegative. -/
theorem log_cond_prob_geq_nonneg (c : AlignCfg) (fl : Bool) (i j k : ℕ)
    (hw : ∀ i j, 0 ≤ c.w i j) (heps : 0 ≤ c.eps) :
    0 ≤ log_cond_prob_geq c fl i j k := by
  unfold log_cond_prob_geq
  split
  · exact Finset.sum_nonneg fun x _ => log_cond_prob_nonneg c fl i x k hw heps
  · exact heps

/-- Helper: DP table entries are nonnegative. -/
theorem B_ij_nonneg (c : AlignCfg) (fl : Bool)
    (hw : ∀ i j, 0 ≤ c.w i j) (heps : 0 ≤ c.eps) :
    ∀ i col, 0 ≤ B_ij c fl i col := by
  intro i
  induction i with
  | zero =>
    intro col
    simp only [B_ij]
    split <;> norm_num
  | succ n ih =>
    intro col
    simp only [B_ij]
    split
    · exact Finset.sum_nonneg fun k _ =>
        mul_nonneg (ih k) (log_cond_prob_nonneg c fl n (col - 1) k hw heps)
    · exact le_refl 0

/-- Helper: when some cell of the row is valid, the normalisation
denominator is strictly positive. -/
theorem sumExpEnergy_pos (c : AlignCfg) (fl : Bool) (i k : ℕ)
    (hw : ∀ i j, 0 < c.w i j) (heps : 0 ≤ c.eps)
    (hex : ∃ j, j < c.J ∧ validCell c fl i j k) :
    0 < sumExpEnergy c fl i k := by
  obtain ⟨j0, hj0, hv⟩ := hex
  have hle : energyMasked c fl i j0 k ≤ sumExpEnergy c fl i k :=
    Finset.single_le_sum
      (fun j _ => energyMasked_nonneg c fl i j k (fun a b => (hw a b).le) heps)
      (Finset.mem_range.2 hj0)
  have hpos : 0 < energyMasked c fl i j0 k := by
    unfold energyMasked
    rw [if_pos hv]
    exact hw i j0
  linarith

/-- Helper: the conditional distribution sums to one over the whole frame
axis (idealised sentinel, positive weights, some valid cell). -/
theorem sum_log_cond_prob (c : AlignCfg) (fl : Bool) (i k : ℕ)
    (heps : c.eps = 0) (hw : ∀ i j, 0 < c.w i j)
    (hex : ∃ j, j < c.J ∧ validCell c fl i j k) :
    ∑ j ∈ Finset.range c.J, log_cond_prob c fl i j k = 1 := by
  unfold log_cond_prob
  rw [← Finset.sum_div]
  exact div_self
    (ne_of_gt (sumExpEnergy_pos c fl i k hw (by rw [heps]) hex))

/-- C4: for every transition state (i, k) admitted by the validity
predicate (some frame j is valid for it), the LOG_EPS-masked,
logsumexp-normalised conditional distribution of compute_log_cond_prob
puts total mass exactly 1 on the valid frames (idealised sentinel,
positive energy weights), in either direction. -/
theorem c4_cond_prob_normalized (c : AlignCfg) (fl : Bool) (i k : ℕ)
    (heps : c.eps = 0) (hw : ∀ i j, 0 < c.w i j)
    (hex : ∃ j, j < c.J ∧ validCell c fl i j k) :
    ∑ j ∈ (Finset.range c.J).filter (fun j => validCell c fl i j k),
      log_cond_prob c fl i j k = 1 := by
  have hsplit := Finset.sum_filter_add_sum_filter_not (Finset.range c.J)
    (fun j => validCell c fl i j k) (fun j => log_cond_prob c fl i j k)
  have hzero : ∑ j ∈ (Finset.range c.J).filter
      (fun j => ¬ validCell c fl i j k), log_cond_prob c fl i j k = 0 :=
    Finset.sum_eq_zero fun j hj =>
      log_cond_prob_of_invalid c fl i j k heps (Finset.mem_filter.1 hj).2
  have htot := sum_log_cond_prob c fl i k heps hw hex
  linarith

/-- C4 witness at a concrete valid transition state. -/
theorem c4_cond_prob_normalized_witness :
    (∃ j, j < cfgC1.J ∧ validCell cfgC1 true 0 j 0) ∧
      ∑ j ∈ (Finset.range cfgC1.J).filter
          (fun j => validCell cfgC1 true 0 j 0),
        log_cond_prob cfgC1 true 0 j 0 = 1 :=
  ⟨⟨0, by decide, by decide⟩,
    c4_cond_prob_normalized cfgC1 true 0 0 rfl (fun _ _ => one_pos)
      ⟨0, by decide, by decide⟩⟩

/-- Helper: support of the forward DP — a nonzero banded entry lies inside
the per-row feasibility window i ≤ col and col ≤ mLen - tLen + i. -/
theorem B_ij_support (c : AlignCfg) (heps : c.eps = 0)
    (htm : c.tLen ≤ c.mLen) :
    ∀ i col, B_ij c true i col ≠ 0 →
      i ≤ col ∧ col + c.tLen ≤ c.mLen + i := by
  intro i
  induction i with
  | zero =>
    intro col h
    by_cases hcol : col = 0
    · subst hcol; omega
    · exact absurd (by simp [B_ij, hcol]) h
  | succ n ih =>
    intro col h
    simp only [B_ij] at h
    by_cases hband : n + 1 ≤ col ∧ col + c.I ≤ c.J + n + 2 ∧ col ≤ c.J
    · rw [if_pos hband] at h
      obtain ⟨k, _, hne⟩ := Finset.exists_ne_zero_of_sum_ne_zero h
      have hpw : log_cond_prob c true n (col - 1) k ≠ 0 :=
        fun hz => hne (by rw [hz, mul_zero])
      have hv : validCell c true n (col - 1) k := by
        by_contra hnv
        exact hpw (log_cond_prob_of_invalid c true n (col - 1) k heps hnv)
      have h1 : n ≤ col - 1 := hv.2.2.2.2.1
      have h2 : col - 1 + c.tLen ≤ c.mLen + n := hv.2.2.2.2.2.1
      omega
    · rw [if_neg hband] at h
      exact absurd rfl h

/-- Helper: every feasible transition state admits a valid frame (the
pinned frame for the last token, the diagonal frame otherwise). -/
theorem exists_validCell (c : AlignCfg) (htm : c.tLen < c.mLen)
    (hmJ : c.mLen ≤ c.J) (i k : ℕ) (hi : i < c.tLen) (hik : i ≤ k)
    (hk : k + c.tLen ≤ c.mLen + i) :
    ∃ j, j < c.J ∧ validCell c true i j k := by
  by_cases hlast : i + 1 = c.tLen
  · refine ⟨c.mLen - 1, by omega, ?_⟩
    exact ⟨hi, by omega, by omega, by omega, by omega, by omega,
      fun _ _ => by omega⟩
  · refine ⟨max i k, by omega, ?_⟩
    exact ⟨hi, by omega, by omega, le_max_right i k, le_max_left i k,
      by omega, fun _ hcon => absurd hcon hlast⟩

/-- Helper: one unconditional unfolding of the banded recursion. -/
theorem B_ij_succ_eq (c : AlignCfg) (fl : Bool) (i col : ℕ) :
    B_ij c fl (i + 1) col =
      ∑ k ∈ Finset.range c.J, B_ij c fl i k *
        (if i + 1 ≤ col ∧ col + c.I ≤ c.J + i + 2 ∧ col ≤ c.J then
          log_cond_prob c fl i (col - 1) k else 0) := by
  by_cases hband : i + 1 ≤ col ∧ col + c.I ≤ c.J + i + 2 ∧ col ≤ c.J
  · simp only [B_ij, if_pos hband]
  · simp only [B_ij, if_neg hband, mul_zero, Finset.sum_const_zero]

/-- Helper: the forward DP conserves mass row by row — each row up to the
last valid token has total probability 1 over the table width (idealised
sentinel, positive weights, and the band-coverage condition
mLen + I ≤ J + tLen + 1 that keeps the per-row feasibility window inside
the written band). -/
theorem B_ij_row_sum (c : AlignCfg) (heps : c.eps = 0)
    (hw : ∀ i j, 0 < c.w i j) (htm : c.tLen < c.mLen) (hmJ : c.mLen ≤ c.J)
    (hcov : c.mLen + c.I ≤ c.J + c.tLen + 1) :
    ∀ i, i < c.tLen →
      ∑ col ∈ Finset.range (c.J + 1), B_ij c true i col = 1 := by
  intro i
  induction i with
  | zero =>
    intro _
    simp [B_ij]
  | succ n ih =>
    intro hlt
    have hnlt : n < c.tLen := by omega
    have hrw : ∑ col ∈ Finset.range (c.J + 1), B_ij c true (n + 1) col =
        ∑ k ∈ Finset.range c.J, B_ij c true n k *
          ∑ col ∈ Finset.range (c.J + 1),
            (if n + 1 ≤ col ∧ col + c.I ≤ c.J + n + 2 ∧ col ≤ c.J then
              log_cond_prob c true n (col - 1) k else 0) := by
      rw [Finset.sum_congr rfl fun col _ => B_ij_succ_eq c true n col,
        Finset.sum_comm]
      exact Finset.sum_congr rfl fun k _ => (Finset.mul_sum _ _ _).symm
    rw [hrw]
    have hterm : ∀ k ∈ Finset.range c.J,
        B_ij c true n k *
          ∑ col ∈ Finset.range (c.J + 1),
            (if n + 1 ≤ col ∧ col + c.I ≤ c.J + n + 2 ∧ col ≤ c.J then
              log_cond_prob c true n (col - 1) k else 0) =
        B_ij c true n k := by
      intro k _
      by_cases hB : B_ij c true n k = 0
      · rw [hB, zero_mul]
      · have hsupp := B_ij_support c heps htm.le n k hB
        have hinner : ∑ col ∈ Finset.range (c.J + 1),
            (if n + 1 ≤ col ∧ col + c.I ≤ c.J + n + 2 ∧ col ≤ c.J then
              log_cond_prob c true n (col - 1) k else 0) = 1 := by
          rw [Finset.sum_range_succ']
          have hf0 : (if n + 1 ≤ 0 ∧ 0 + c.I ≤ c.J + n + 2 ∧ 0 ≤ c.J then
              log_cond_prob c true n (0 - 1) k else 0) = 0 :=
            if_neg (by omega)
          rw [hf0, add_zero]
          have hcong : ∀ j ∈ Finset.range c.J,
              (if n + 1 ≤ j + 1 ∧ j + 1 + c.I ≤ c.J + n + 2 ∧ j + 1 ≤ c.J
                then log_cond_prob c true n (j + 1 - 1) k else 0) =
              log_cond_prob c true n j k := by
            intro j hj
            have hjJ : j < c.J := Finset.mem_range.1 hj
            by_cases hbj : n + 1 ≤ j + 1 ∧ j + 1 + c.I ≤ c.J + n + 2 ∧
                j + 1 ≤ c.J
            · rw [if_pos hbj, Nat.add_sub_cancel]
            · rw [if_neg hbj]
              symm
              refine log_cond_prob_of_invalid c true n j k heps fun hv => ?_
              have h1 : n ≤ j := hv.2.2.2.2.1
              have h2 : j + c.tLen ≤ c.mLen + n := hv.2.2.2.2.2.1
              exact hbj ⟨by omega, by omega, by omega⟩
          rw [Finset.sum_congr rfl hcong]
          exact sum_log_cond_prob c true n k heps hw
            (exists_validCell c htm hmJ n k hnlt hsupp.1 hsupp.2)
        rw [hinner, mul_one]
    rw [Finset.sum_congr rfl hterm]
    have hJ0 : B_ij c true n c.J = 0 := by
      by_contra hne
      have := B_ij_support c heps htm.le n c.J hne
      omega
    have hprev := ih hnlt
    rw [Finset.sum_range_succ, hJ0, add_zero] at hprev
    exact hprev

/-- Helper: row mass 1 restricted to the first J columns (the part of a
valid row that calculate_interval_probability reads). -/
theorem B_ij_row_sum_J (c : AlignCfg) (heps : c.eps = 0)
    (hw : ∀ i j, 0 < c.w i j) (htm : c.tLen < c.mLen) (hmJ : c.mLen ≤ c.J)
    (hcov : c.mLen + c.I ≤ c.J + c.tLen + 1) (i : ℕ) (hi : i < c.tLen) :
    ∑ k ∈ Finset.range c.J, B_ij c true i k = 1 := by
  have h := B_ij_row_sum c heps hw htm hmJ hcov i hi
  have hJ0 : B_ij c true i c.J = 0 := by
    by_contra hne
    have := B_ij_support c heps htm.le i c.J hne
    omega
  rw [Finset.sum_range_succ, hJ0, add_zero] at h
  exact h

/-- Helper: the interval-probability row of the last valid token sums to
exactly 1 over the valid frames: terminal pinning concentrates its suffix
distribution on the final frame, so the row collects exactly the DP row
mass. -/
theorem interval_sum_last_row (c : AlignCfg) (heps : c.eps = 0)
    (hw : ∀ i j, 0 < c.w i j) (h0 : 0 < c.tLen) (htm : c.tLen < c.mLen)
    (hmJ : c.mLen ≤ c.J) (hcov : c.mLen + c.I ≤ c.J + c.tLen + 1) :
    ∑ j ∈ Finset.range c.mLen,
      calculate_interval_probability c true (c.tLen - 1) j = 1 := by
  set L := c.tLen - 1 with hL
  have hLlt : L < c.tLen := by omega
  have hswap : ∑ j ∈ Finset.range c.mLen,
      calculate_interval_probability c true L j
      = ∑ k ∈ Finset.range c.J, B_ij c true L k *
          ∑ j ∈ Finset.range c.mLen, log_cond_prob_geq c true L j k := by
    unfold calculate_interval_probability
    rw [Finset.sum_comm]
    exact Finset.sum_congr rfl fun k _ => (Finset.mul_sum _ _ _).symm
  rw [hswap]
  have hterm : ∀ k ∈ Finset.range c.J,
      B_ij c true L k *
          ∑ j ∈ Finset.range c.mLen, log_cond_prob_geq c true L j k
        = B_ij c true L k := by
    intro k hkJ
    by_cases hB : B_ij c true L k = 0
    · rw [hB, zero_mul]
    · have hsupp := B_ij_support c heps htm.le L k hB
      have hkm : k < c.mLen := by omega
      have hvpin : validCell c true L (c.mLen - 1) k :=
        ⟨hLlt, by omega, by omega, by omega, by omega, by omega,
          fun _ _ => by omega⟩
      have hothers : ∀ j ∈ Finset.range c.mLen, j ≠ c.mLen - 1 →
          log_cond_prob_geq c true L j k = 0 := by
        intro j hj hne
        have hjm : j < c.mLen := Finset.mem_range.1 hj
        have hinv : ¬ validCell c true L j k := fun hv => by
          have := hv.2.2.2.2.2.2 rfl (by omega)
          omega
        rw [log_cond_prob_geq, if_neg hinv, heps]
      have hcollapse : ∑ j ∈ Finset.range c.mLen,
          log_cond_prob_geq c true L j k
          = log_cond_prob_geq c true L (c.mLen - 1) k :=
        Finset.sum_eq_single_of_mem (c.mLen - 1)
          (Finset.mem_range.2 (by omega)) hothers
      rw [hcollapse, log_cond_prob_geq, if_pos hvpin]
      have hlow0 : ∑ x ∈ Finset.range (c.mLen - 1),
          log_cond_prob c true L x k = 0 := by
        refine Finset.sum_eq_zero fun x hx => ?_
        have hxm : x < c.mLen - 1 := Finset.mem_range.1 hx
        refine log_cond_prob_of_invalid c true L x k heps fun hv => ?_
        have := hv.2.2.2.2.2.2 rfl (by omega)
        omega
      have hsplit : ∑ x ∈ Finset.range (c.mLen - 1),
            log_cond_prob c true L x k
            + ∑ x ∈ Finset.Ico (c.mLen - 1) c.J, log_cond_prob c true L x k
          = ∑ x ∈ Finset.range c.J, log_cond_prob c true L x k := by
        simp only [Finset.range_eq_Ico]
        exact Finset.sum_Ico_consecutive _ (by omega) (by omega)
      have htot := sum_log_cond_prob c true L k heps hw
        (exists_validCell c htm hmJ L k hLlt hsupp.1 hsupp.2)
      have hsfx : ∑ x ∈ Finset.Ico (c.mLen - 1) c.J,
          log_cond_prob c true L x k = 1 := by
        rw [hlow0, zero_add] at hsplit
        rw [hsplit, htot]
      rw [hsfx, mul_one]
  rw [Finset.sum_congr rfl hterm]
  exact B_ij_row_sum_J c heps hw htm hmJ hcov L hLlt

/-- Helper: every valid token's interval-probability row sums to at least 1
over the valid frames (it equals the expected number of frames the token
owns). -/
theorem interval_sum_ge_one (c : AlignCfg) (heps : c.eps = 0)
    (hw : ∀ i j, 0 < c.w i j) (h0 : 0 < c.tLen) (htm : c.tLen < c.mLen)
    (hmJ : c.mLen ≤ c.J) (hcov : c.mLen + c.I ≤ c.J + c.tLen + 1)
    (i : ℕ) (hi : i < c.tLen) :
    1 ≤ ∑ j ∈ Finset.range c.mLen,
      calculate_interval_probability c true i j := by
  by_cases hlast : i + 1 = c.tLen
  · have hiL : i = c.tLen - 1 := by omega
    rw [hiL, interval_sum_last_row c heps hw h0 htm hmJ hcov]
  · have hswap : ∑ j ∈ Finset.range c.mLen,
        calculate_interval_probability c true i j
        = ∑ k ∈ Finset.range c.J, B_ij c true i k *
            ∑ j ∈ Finset.range c.mLen, log_cond_prob_geq c true i j k := by
      unfold calculate_interval_probability
      rw [Finset.sum_comm]
      exact Finset.sum_congr rfl fun k _ => (Finset.mul_sum _ _ _).symm
    rw [hswap]
    have hge : ∀ k ∈ Finset.range c.J,
        B_ij c true i k ≤ B_ij c true i k *
          ∑ j ∈ Finset.range c.mLen, log_cond_prob_geq c true i j k := by
      intro k _
      by_cases hB : B_ij c true i k = 0
      · rw [hB, zero_mul]
      · have hsupp := B_ij_support c heps htm.le i k hB
        have hkm : k < c.mLen := by omega
        have hvkk : validCell c true i k k :=
          ⟨hi, by omega, by omega, le_refl k, hsupp.1, by omega,
            fun _ hcon => absurd hcon hlast⟩
        have hdiag : log_cond_prob_geq c true i k k = 1 := by
          rw [log_cond_prob_geq, if_pos hvkk]
          have hlow0 : ∑ x ∈ Finset.range k,
              log_cond_prob c true i x k = 0 := by
            refine Finset.sum_eq_zero fun x hx => ?_
            have hxk : x < k := Finset.mem_range.1 hx
            refine log_cond_prob_of_invalid c true i x k heps fun hv => ?_
            have := hv.2.2.2.1
            omega
          have hsplit : ∑ x ∈ Finset.range k, log_cond_prob c true i x k
                + ∑ x ∈ Finset.Ico k c.J, log_cond_prob c true i x k
              = ∑ x ∈ Finset.range c.J, log_cond_prob c true i x k := by
            simp only [Finset.range_eq_Ico]
            exact Finset.sum_Ico_consecutive _ (by omega) (by omega)
          have htot := sum_log_cond_prob c true i k heps hw
            (exists_validCell c htm hmJ i k hi hsupp.1 hsupp.2)
          rw [hlow0, zero_add] at hsplit
          rw [hsplit, htot]
        have hinner : 1 ≤ ∑ j ∈ Finset.range c.mLen,
            log_cond_prob_geq c true i j k := by
          rw [← hdiag]
          exact Finset.single_le_sum
            (fun j _ => log_cond_prob_geq_nonneg c true i j k
              (fun a b => (hw a b).le) (by rw [heps]))
            (Finset.mem_range.2 hkm)
        calc B_ij c true i k = B_ij c true i k * 1 := (mul_one _).symm
          _ ≤ B_ij c true i k *
              ∑ j ∈ Finset.range c.mLen, log_cond_prob_geq c true i j k :=
            mul_le_mul_of_nonneg_left hinner
              (B_ij_nonneg c true (fun a b => (hw a b).le) (by rw [heps]) i k)
    calc (1 : ℚ) = ∑ k ∈ Finset.range c.J, B_ij c true i k :=
        (B_ij_row_sum_J c heps hw htm hmJ hcov i hi).symm
      _ ≤ ∑ k ∈ Finset.range c.J, B_ij c true i k *
            ∑ j ∈ Finset.range c.mLen, log_cond_prob_geq c true i j k :=
        Finset.sum_le_sum hge

/-- C1 amended: under the claim's preconditions (plus the band-coverage
condition mLen + I ≤ J + tLen + 1 and the idealised sentinel), the
per-token mass of the forward interval probability is not 1 for every
valid token; what holds is that every valid token's row sums to at least 1
(its expected number of owned frames), with equality for the last valid
token. -/
theorem c1_token_mass_amended (c : AlignCfg) (heps : c.eps = 0)
    (hw : ∀ i j, 0 < c.w i j) (h0 : 0 < c.tLen) (htm : c.tLen < c.mLen)
    (hmJ : c.mLen ≤ c.J) (hcov : c.mLen + c.I ≤ c.J + c.tLen + 1) :
    (∑ j ∈ Finset.range c.mLen,
        calculate_interval_probability c true (c.tLen - 1) j = 1) ∧
      ∀ i, i < c.tLen →
        1 ≤ ∑ j ∈ Finset.range c.mLen,
          calculate_interval_probability c true i j :=
  ⟨interval_sum_last_row c heps hw h0 htm hmJ hcov,
    fun i hi => interval_sum_ge_one c heps hw h0 htm hmJ hcov i hi⟩

/-- C1 amended witness at the concrete uniform instance. -/
theorem c1_token_mass_amended_witness :
    (cfgC1.eps = 0 ∧ 0 < cfgC1.tLen ∧ cfgC1.tLen < cfgC1.mLen ∧
        cfgC1.mLen ≤ cfgC1.J ∧
        cfgC1.mLen + cfgC1.I ≤ cfgC1.J + cfgC1.tLen + 1) ∧
      (∑ j ∈ Finset.range cfgC1.mLen,
          calculate_interval_probability cfgC1 true (cfgC1.tLen - 1) j = 1) ∧
        ∀ i, i < cfgC1.tLen →
          1 ≤ ∑ j ∈ Finset.range cfgC1.mLen,
            calculate_interval_probability cfgC1 true i j :=
  ⟨⟨rfl, by decide, by decide, by decide, by decide⟩,
    c1_token_mass_amended cfgC1 rfl (fun _ _ => one_pos) (by decide)
      (by decide) (by decide) (by decide)⟩

/-- C3 amended: under the band-coverage condition mLen + I ≤ J + tLen + 1
(in particular whenever the batch row fills its padded dims, since then
mLen - tLen = J - I) and the idealised sentinel, the banded DP of
compute_forward_pass agrees with the unbanded reference recursion at every
cell of the table, in either direction: there the band is an optimisation,
not an approximation.  Without that condition the two differ at cells read
downstream (see the counterexample). -/
theorem c3_band_equiv_amended (c : AlignCfg) (fl : Bool) (heps : c.eps = 0)
    (hcov : c.mLen + c.I ≤ c.J + c.tLen + 1) :
    ∀ i col, col ≤ c.J → B_ij c fl i col = B_ij_unbanded c fl i col := by
  intro i
  induction i with
  | zero =>
    intro col _
    simp only [B_ij, B_ij_unbanded]
  | succ n ih =>
    intro col hcol
    by_cases hband : n + 1 ≤ col ∧ col + c.I ≤ c.J + n + 2 ∧ col ≤ c.J
    · have hcol0 : ¬ col = 0 := by omega
      simp only [B_ij, B_ij_unbanded, if_pos hband, if_neg hcol0]
      exact Finset.sum_congr rfl fun k hk => by
        rw [ih k (Finset.mem_range.1 hk).le]
    · simp only [B_ij, if_neg hband]
      by_cases hcol0 : col = 0
      · subst hcol0
        simp [B_ij_unbanded]
      · simp only [B_ij_unbanded, if_neg hcol0]
        symm
        refine Finset.sum_eq_zero fun k hk => ?_
        have hpz : log_cond_prob c fl n (col - 1) k = 0 := by
          refine log_cond_prob_of_invalid c fl n (col - 1) k heps fun hv => ?_
          have h1 : n ≤ col - 1 := hv.2.2.2.2.1
          have h2 : col - 1 + c.tLen ≤ c.mLen + n := hv.2.2.2.2.2.1
          omega
        rw [hpz, mul_zero]

/-- C3 amended witness at a covered concrete instance. -/
theorem c3_band_equiv_amended_witness :
    cfgC1.mLen + cfgC1.I ≤ cfgC1.J + cfgC1.tLen + 1 ∧
      B_ij cfgC1 true 1 2 = B_ij_unbanded cfgC1 true 1 2 :=
  ⟨by decide,
    c3_band_equiv_amended cfgC1 true rfl (by decide) 1 2 (by decide)⟩

end RoMoAligner
